import Mathlib

/-!
Verification of the diagnostic extractor (`parse_logs` in `src/.log_parser.py`).

The Python core reads the whole log text and runs
`re.finditer(r"^([^:]+):(\d+):(\d+):\s+error:\s+(.+)$", text, re.MULTILINE)`,
then deduplicates the matches on the key `(file_path, line, msg)` (with
`file_path` and `msg` whitespace-stripped), printing each new key's record
in order and finally a "no errors" line when nothing was printed.

The embedding below models the text as `List Char` and translates the regex
into an explicit matcher.  For this particular pattern, Python's backtracking
search is deterministic at every point except the final `\s+(.+)$`, where the
greedy `\s+` backtracks from its maximal run down to the largest split that
leaves at least one non-newline character for `(.+)`; `backtrackWS` models
exactly that search order.  All other quantifiers are forced: each of
`[^:]+`, `\d+` and `\s+` is followed by a literal that its own character
class rejects (`:` or `e`), so only the maximal run can succeed.  In
`re.MULTILINE`, `^` matches at the start of the text and after every `'\n'`,
and `$` matches at the end of the text and before every `'\n'`; `.` matches
every character except `'\n'`, while `[^:]` and `\s` do match `'\n'`.
`finditer` yields non-overlapping matches left to right, resuming after the
end of each match; `scanF` models that scan, attempting the anchored pattern
at every line start.

Python's `\s` (and `str.strip`) is modelled by `pySpace`, the Unicode
whitespace set; `\d` is modelled on the ASCII digits (Python additionally
accepts other Unicode decimal digits, which none of the claims involve).
-/

/-- The whitespace class of Python's `\s` for `str` patterns and of
`str.strip` (Unicode whitespace). -/
def pySpace (c : Char) : Bool :=
  c == ' ' || c == '\t' || c == '\n' || c == '\x0b' || c == '\x0c' || c == '\x0d'
    || c == '\x1c' || c == '\x1d' || c == '\x1e' || c == '\x1f' || c == '\x85'
    || c == '\xa0' || c == '\u1680' || c == '\u2000' || c == '\u2001'
    || c == '\u2002' || c == '\u2003' || c == '\u2004' || c == '\u2005'
    || c == '\u2006' || c == '\u2007' || c == '\u2008' || c == '\u2009'
    || c == '\u200a' || c == '\u2028' || c == '\u2029' || c == '\u202f'
    || c == '\u205f' || c == '\u3000'

/-- The digit class of Python's `\d`, on the ASCII fragment. -/
def pyDigit (c : Char) : Bool := c.isDigit

/-- Python's `str.strip()`: remove leading and trailing whitespace. -/
def strip (l : List Char) : List Char :=
  ((l.dropWhile pySpace).reverse.dropWhile pySpace).reverse

/-- One match of the diagnostic pattern: the four capture groups
(file path, line number, column number, message). -/
structure Rec where
  file : List Char
  line : List Char
  col : List Char
  msg : List Char
deriving DecidableEq, Repr

/-- The deduplication key built in the loop body:
`key = (file_path, line, msg)` — the column number is excluded. -/
def dedupKey (r : Rec) : List Char × List Char × List Char :=
  (r.file, r.line, r.msg)

/-- Match a literal character sequence at the head of the input,
returning the remainder on success. -/
def dropLiteral : List Char → List Char → Option (List Char)
  | [], s => some s
  | _ :: _, [] => none
  | c :: cs, x :: xs => if c = x then dropLiteral cs xs else none

/-- The literal token `error:` of the pattern. -/
def errorLit : List Char := ("error:").toList

/-- One colon-terminated capture group: `([^:]+):` for `P c = (c != ':')`
and `(\d+):` for `P = pyDigit`.  The greedy run is forced to be maximal
because a shorter run would leave a character of the same class where the
literal `:` is required, so no backtracking arises. -/
def parseGroup (P : Char → Bool) (s : List Char) : Option (List Char × List Char) :=
  match s.dropWhile P with
  | ':' :: t => if s.takeWhile P = [] then none else some (s.takeWhile P, t)
  | _ => none

/-- `\s+error:` — the mandatory whitespace run followed by the literal.
The run is forced maximal because `error:` starts with a non-whitespace
character. -/
def parseWsLiteral (s : List Char) : Option (List Char) :=
  if s.takeWhile pySpace = [] then none
  else dropLiteral errorLit (s.dropWhile pySpace)

/-- The backtracking of the greedy `\s+` before `(.+)$`: having consumed its
maximal run of `w` whitespace characters, the engine retreats to the largest
`k ≤ w`, `k ≥ 1`, such that the character at index `k` exists and is not
`'\n'` (so that `(.+)` can consume at least one character).  Returns that
`k`, or `none` when every split fails. -/
def backtrackWS (t : List Char) : Nat → Option Nat
  | 0 => none
  | k + 1 =>
    match t[k + 1]? with
    | some c => if c = '\n' then backtrackWS t k else some (k + 1)
    | none => backtrackWS t k

/-- `\s+(.+)$` — after the split chosen by `backtrackWS`, the greedy `(.+)`
takes the maximal run of non-newline characters, after which `$` always
holds (the position is the end of the text or a `'\n'`).  Returns the
message capture and the remainder of the text after the match. -/
def parseMsg (t : List Char) : Option (List Char × List Char) :=
  match backtrackWS t (t.takeWhile pySpace).length with
  | some k =>
    some ((t.drop k).takeWhile (fun c => c != '\n'),
      t.drop (k + ((t.drop k).takeWhile (fun c => c != '\n')).length))
  | none => none

/-- Attempt the whole pattern `([^:]+):(\d+):(\d+):\s+error:\s+(.+)$` at the
current position (the leading `^` is the caller's responsibility).  On
success, returns the four raw captures and the text after the match. -/
def tryMatch (s : List Char) : Option (Rec × List Char) :=
  match parseGroup (fun c => c != ':') s with
  | some (g1, t1) =>
    match parseGroup pyDigit t1 with
    | some (g2, t2) =>
      match parseGroup pyDigit t2 with
      | some (g3, t3) =>
        match parseWsLiteral t3 with
        | some t5 =>
          match parseMsg t5 with
          | some (msgRaw, after) => some (⟨g1, g2, g3, msgRaw⟩, after)
          | none => none
        | none => none
      | none => none
    | none => none
  | none => none

/-- The `finditer` scan: attempt the anchored pattern at every line start
(`atStart` records whether the previous character was `'\n'`, or that we are
at position 0), resuming after the end of each match.  The fuel argument is
structural; one unit is spent per character or per match, and a match always
consumes at least one character, so fuel equal to the length of the text
never runs out (`scanF_congr` below). -/
def scanF : Nat → List Char → Bool → List Rec
  | 0, _, _ => []
  | _ + 1, [], _ => []
  | fuel + 1, c :: rest, false => scanF fuel rest (c == '\n')
  | fuel + 1, c :: rest, true =>
    match tryMatch (c :: rest) with
    | some (r, after) => r :: scanF fuel after false
    | none => scanF fuel rest (c == '\n')

/-- All raw matches of the pattern over the text, in order of occurrence. -/
def rawScan (s : List Char) : List Rec := scanF s.length s true

/-- The per-match post-processing of the loop body:
`file_path = group(1).strip()`, `line = group(2)`, `col = group(3)`,
`msg = group(4).strip()`. -/
def mkRec (r : Rec) : Rec := ⟨strip r.file, r.line, r.col, strip r.msg⟩

/-- The processed matches, in order of occurrence in the text. -/
def rawRecords (s : List Char) : List Rec := (rawScan s).map mkRec

/-- The deduplication loop: `seen` models the Python set of keys and the
boolean models `errors_found`; each match whose key is new is emitted and
its key added, duplicates are discarded. -/
def dedupLoop :
    List Rec → List (List Char × List Char × List Char) → Bool → List Rec × Bool
  | [], _, found => ([], found)
  | r :: rs, seen, found =>
    if dedupKey r ∈ seen then dedupLoop rs seen found
    else
      let rest := dedupLoop rs (dedupKey r :: seen) true
      (r :: rest.1, rest.2)

/-- The whole extractor: the ordered, deduplicated records together with the
`errors_found` flag (`false` means the "no compilation errors found"
terminal line is printed). -/
def parse_logs (s : List Char) : List Rec × Bool :=
  dedupLoop (rawRecords s) [] false

/-- Modelled from the spec's words (§3 Invariants): keep, for each distinct
`DedupKey`, exactly the first record bearing it, in order of first
occurrence; drop every later record with an already-seen key.  This is the
reference description that `parse_logs` is compared against. -/
def dedupByKey : List Rec → List Rec
  | [] => []
  | r :: rs =>
    r :: dedupByKey (rs.filter (fun x => decide (dedupKey x ≠ dedupKey r)))
termination_by l => l.length
decreasing_by
  simpa using Nat.lt_succ_of_le (List.length_filter_le _ _)

/-- Numeric value denoted by a captured digit string. -/
def digitsVal (l : List Char) : Nat :=
  l.foldl (fun n c => 10 * n + (c.toNat - ('0').toNat)) 0

/-- Replace every LF by CRLF (the transformation of claim C10). -/
def toCRLF : List Char → List Char
  | [] => []
  | c :: rest =>
    if c = '\n' then '\x0d' :: '\n' :: toCRLF rest else c :: toCRLF rest

/-- A single diagnostic line with single spaces around `error:`:
`p:l:c: error: m`. -/
def mkErrLine (p l c m : List Char) : List Char :=
  p ++ ':' :: (l ++ ':' :: (c ++ ':' :: ' ' :: (errorLit ++ ' ' :: m)))

/-- Claim C2's input: `x.swift:1:1: error:` followed by four spaces. -/
def inC2 : List Char := ("x.swift:1:1: error:    ").toList

/-- Claim C3's input: no whitespace around `error:`. -/
def inC3 : List Char := ("a.swift:1:2:error:msg").toList

/-- Claim C4: a diagnostic split across two physical lines. -/
def inC4a : List Char := ("a.swift:1:2:\nerror: msg").toList

/-- Claim C4: a file path spanning a line break. -/
def inC4b : List Char := ("ab\ncd:1:2: error: x").toList

/-- Claim C5: a `warning:` line. -/
def inC5w : List Char := ("path:1:1: warning: message").toList

/-- Claim C5: a `note:` line. -/
def inC5n : List Char := ("path:1:1: note: message").toList

/-- Claim C5: an `Error:` line (wrong case). -/
def inC5e : List Char := ("path:1:1: Error: message").toList

/-- Claim C7's input: line numbers `7` and `007`. -/
def inC7 : List Char := ("a.swift:7:1: error: m\na.swift:007:1: error: m").toList

/-- Claim C8's input: zero line and column numbers. -/
def inC8 : List Char := ("a.swift:0:0: error: msg").toList

/-- Claim C10's LF input: only whitespace follows `error:`. -/
def inC10 : List Char := ("x.swift:1:1: error: \n").toList

/-- A two-diagnostic text with a duplicate key (differing columns), used as
a concrete instance of the deduplication claims. -/
def inDup : List Char :=
  ("a.x:1:2: error: m\nb.x:3:4: error: n\na.x:1:9: error: m").toList

example : rawScan inC2 = [⟨("x.swift").toList, ['1'], ['1'], [' ']⟩] := by decide

example :
    parse_logs inDup =
      ([⟨("a.x").toList, ['1'], ['2'], ['m']⟩,
        ⟨("b.x").toList, ['3'], ['4'], ['n']⟩], true) := by decide

example : parse_logs inC4a = ([⟨("a.swift").toList, ['1'], ['2'], ("msg").toList⟩], true) := by
  decide

/-! ### List utilities -/

theorem length_dropWhile_le (P : Char → Bool) (l : List Char) :
    (l.dropWhile P).length ≤ l.length :=
  (List.dropWhile_sublist P).length_le

theorem dropWhile_eq_drop (P : Char → Bool) :
    ∀ l : List Char, l.dropWhile P = l.drop (l.takeWhile P).length := by
  intro l
  induction l with
  | nil => rfl
  | cons c rest ih =>
    by_cases h : P c = true
    · simp [List.dropWhile_cons, List.takeWhile_cons, h, ih]
    · simp [List.dropWhile_cons, List.takeWhile_cons, h]

theorem takeWhile_append_stop (P : Char → Bool) (a b : List Char)
    (h : ∃ x ∈ a, P x = false) :
    (a ++ b).takeWhile P = a.takeWhile P := by
  induction a with
  | nil =>
    obtain ⟨x, hx, _⟩ := h
    exact absurd hx (List.not_mem_nil x)
  | cons c rest ih =>
    by_cases hc : P c = true
    · obtain ⟨x, hx, hPx⟩ := h
      have hxr : x ∈ rest := by
        rcases List.mem_cons.mp hx with rfl | hxr
        · rw [hc] at hPx; exact absurd hPx (by simp)
        · exact hxr
      simp [List.takeWhile_cons, hc, ih ⟨x, hxr, hPx⟩]
    · simp [List.takeWhile_cons, hc]

theorem dropLiteral_length (a : List Char) :
    ∀ s t : List Char, dropLiteral a s = some t → t.length ≤ s.length := by
  induction a with
  | nil =>
    intro s t h
    simp [dropLiteral] at h
    simp [h]
  | cons c cs ih =>
    intro s t h
    cases s with
    | nil => simp [dropLiteral] at h
    | cons x xs =>
      simp only [dropLiteral] at h
      split at h
      · exact le_trans (ih xs t h) (by simp)
      · exact absurd h (by simp)

theorem dropLiteral_append (a b : List Char) : dropLiteral a (a ++ b) = some b := by
  induction a with
  | nil => rfl
  | cons c cs ih => simp [dropLiteral, ih]

/-! ### The capture-group steps -/

theorem parseGroup_length (P : Char → Bool) (s g t : List Char)
    (h : parseGroup P s = some (g, t)) : t.length < s.length := by
  unfold parseGroup at h
  split at h
  next t' heq =>
    split at h
    · exact absurd h (by simp)
    · simp only [Option.some.injEq, Prod.mk.injEq] at h
      obtain ⟨-, rfl⟩ := h
      have hl : (s.dropWhile P).length ≤ s.length := length_dropWhile_le P s
      rw [heq] at hl
      simp only [List.length_cons] at hl
      omega
  next => exact absurd h (by simp)


theorem parseGroup_spec (P : Char → Bool) (s g t : List Char)
    (h : parseGroup P s = some (g, t)) :
    g ≠ [] ∧ (∀ x ∈ g, P x = true) ∧ s = g ++ ':' :: t := by
  unfold parseGroup at h
  split at h
  next t' heq =>
    split at h
    next => exact absurd h (by simp)
    next hg =>
      simp only [Option.some.injEq, Prod.mk.injEq] at h
      obtain ⟨rfl, rfl⟩ := h
      refine ⟨hg, fun x hx => List.mem_takeWhile_imp hx, ?_⟩
      conv_lhs => rw [← List.takeWhile_append_dropWhile P s]
      rw [heq]
  next => exact absurd h (by simp)

theorem parseGroup_of (P : Char → Bool) (a t : List Char)
    (ha : a ≠ []) (hall : ∀ x ∈ a, P x = true) (hcolon : P ':' = false) :
    parseGroup P (a ++ ':' :: t) = some (a, t) := by
  have hdrop : (a ++ ':' :: t).dropWhile P = ':' :: t := by
    rw [List.dropWhile_append_of_pos hall]
    simp [List.dropWhile_cons, hcolon]
  have htake : (a ++ ':' :: t).takeWhile P = a := by
    rw [List.takeWhile_append_of_pos hall]
    simp [List.takeWhile_cons, hcolon]
  unfold parseGroup
  rw [hdrop, htake]
  simp [ha]

theorem parseWsLiteral_length (s t : List Char) (h : parseWsLiteral s = some t) :
    t.length ≤ s.length := by
  unfold parseWsLiteral at h
  split at h
  · exact absurd h (by simp)
  · exact le_trans (dropLiteral_length errorLit _ t h) (length_dropWhile_le pySpace s)

theorem parseWsLiteral_of (r : List Char) :
    parseWsLiteral (' ' :: (errorLit ++ r)) = some r := by
  have hsp : pySpace ' ' = true := by decide
  have hne : pySpace 'e' = false := by decide
  have he : errorLit = 'e' :: ("rror:").toList := rfl
  have htake : (' ' :: (errorLit ++ r)).takeWhile pySpace = [' '] := by
    rw [List.takeWhile_cons_of_pos hsp, he]
    simp [List.cons_append, List.takeWhile_cons, hne]
  have hdrop : (' ' :: (errorLit ++ r)).dropWhile pySpace = errorLit ++ r := by
    rw [List.dropWhile_cons_of_pos hsp, he]
    simp [List.cons_append, List.dropWhile_cons, hne]
  unfold parseWsLiteral
  rw [htake, hdrop]
  simp [dropLiteral_append]

theorem parseMsg_length (t m a : List Char) (h : parseMsg t = some (m, a)) :
    a.length ≤ t.length := by
  unfold parseMsg at h
  split at h
  next k heq =>
    simp only [Option.some.injEq, Prod.mk.injEq] at h
    obtain ⟨-, rfl⟩ := h
    simp [List.length_drop]
  next => exact absurd h (by simp)

theorem parseMsg_no_newline (t m a : List Char) (h : parseMsg t = some (m, a)) :
    ∀ c ∈ m, c ≠ '\n' := by
  unfold parseMsg at h
  split at h
  next k heq =>
    simp only [Option.some.injEq, Prod.mk.injEq] at h
    obtain ⟨rfl, -⟩ := h
    intro c hc
    simpa using List.mem_takeWhile_imp hc
  next => exact absurd h (by simp)


theorem getElem_length_takeWhile (P : Char → Bool) (l : List Char) :
    l[(l.takeWhile P).length]? = (l.dropWhile P).head? := by
  induction l with
  | nil => rfl
  | cons c r ih =>
    by_cases h : P c = true
    · rw [List.takeWhile_cons_of_pos h, List.dropWhile_cons_of_pos h]
      simpa using ih
    · rw [List.takeWhile_cons_of_neg h, List.dropWhile_cons_of_neg h]
      simp

theorem parseMsg_of (m rest : List Char) (hnl : '\n' ∉ m)
    (hnw : ∃ x ∈ m, pySpace x = false) :
    parseMsg (' ' :: (m ++ rest)) =
      some (m.dropWhile pySpace ++ rest.takeWhile (fun c => c != '\n'),
        rest.dropWhile (fun c => c != '\n')) := by
  have hsp : pySpace ' ' = true := by decide
  have hdw_ne : m.dropWhile pySpace ≠ [] := by
    intro h
    obtain ⟨x, hx, hPx⟩ := hnw
    rw [List.dropWhile_eq_nil_iff.mp h x hx] at hPx
    exact absurd hPx (by simp)
  have hlen_split : (m.takeWhile pySpace).length + (m.dropWhile pySpace).length
      = m.length := by
    have h := congrArg List.length (List.takeWhile_append_dropWhile pySpace m)
    rw [List.length_append] at h
    exact h
  have hdw_pos : 0 < (m.dropWhile pySpace).length := List.length_pos.mpr hdw_ne
  have hj_lt : (m.takeWhile pySpace).length < m.length := by omega
  have htake : (' ' :: (m ++ rest)).takeWhile pySpace = ' ' :: m.takeWhile pySpace := by
    rw [List.takeWhile_cons_of_pos hsp, takeWhile_append_stop pySpace m rest hnw]
  have hwlen : ((' ' :: (m ++ rest)).takeWhile pySpace).length
      = (m.takeWhile pySpace).length + 1 := by
    rw [htake]; rfl
  obtain ⟨d, hd⟩ : ∃ d, (m.dropWhile pySpace).head? = some d :=
    ⟨_, List.head?_eq_head hdw_ne⟩
  have hd_ws : pySpace d = false := by
    have hh := List.head_dropWhile_not pySpace m hdw_ne
    rw [List.head?_eq_head hdw_ne] at hd
    injection hd with hd'
    rw [← hd']
    exact hh
  have hd_nl : d ≠ '\n' := by
    intro h
    rw [h] at hd_ws
    exact absurd hd_ws (by decide)
  have hm_get : m[(m.takeWhile pySpace).length]? = some d := by
    rw [getElem_length_takeWhile pySpace m, hd]
  have hget : (' ' :: (m ++ rest))[(m.takeWhile pySpace).length + 1]? = some d := by
    rw [List.getElem?_cons_succ, List.getElem?_append, if_pos hj_lt, hm_get]
  have hbt : backtrackWS (' ' :: (m ++ rest)) ((m.takeWhile pySpace).length + 1)
      = some ((m.takeWhile pySpace).length + 1) := by
    simp only [backtrackWS, hget]
    simp [hd_nl]
  have hdropj : (' ' :: (m ++ rest)).drop ((m.takeWhile pySpace).length + 1)
      = m.dropWhile pySpace ++ rest := by
    rw [List.drop_succ_cons, List.drop_append_of_le_length (le_of_lt hj_lt),
      ← dropWhile_eq_drop]
  have hA_nl : ∀ x ∈ m.dropWhile pySpace, (x != '\n') = true := by
    intro x hx
    have hxm : x ∈ m := List.Sublist.mem hx (List.dropWhile_sublist pySpace)
    simp only [bne_iff_ne, ne_eq]
    intro h
    rw [h] at hxm
    exact hnl hxm
  have hmsg : ((' ' :: (m ++ rest)).drop ((m.takeWhile pySpace).length + 1)).takeWhile
        (fun c => c != '\n')
      = m.dropWhile pySpace ++ rest.takeWhile (fun c => c != '\n') := by
    rw [hdropj, List.takeWhile_append_of_pos hA_nl]
  have hafter : (' ' :: (m ++ rest)).drop (((m.takeWhile pySpace).length + 1)
        + (m.dropWhile pySpace ++ rest.takeWhile (fun c => c != '\n')).length)
      = rest.dropWhile (fun c => c != '\n') := by
    rw [← List.drop_drop, hdropj, List.length_append, List.drop_append]
    exact (dropWhile_eq_drop _ rest).symm
  unfold parseMsg
  rw [hwlen, hbt]
  simp only [hmsg]
  rw [hafter]


/-! ### The whole pattern -/

theorem tryMatch_nil : tryMatch [] = none := rfl

theorem tryMatch_length (s : List Char) (r : Rec) (after : List Char)
    (h : tryMatch s = some (r, after)) : after.length < s.length := by
  unfold tryMatch at h
  split at h
  next g1 t1 h1 =>
    split at h
    next g2 t2 h2 =>
      split at h
      next g3 t3 h3 =>
        split at h
        next t5 h4 =>
          split at h
          next mr af h5 =>
            simp only [Option.some.injEq, Prod.mk.injEq] at h
            obtain ⟨-, rfl⟩ := h
            have l5 := parseMsg_length t5 mr af h5
            have l4 := parseWsLiteral_length t3 t5 h4
            have l3 := parseGroup_length pyDigit t2 g3 t3 h3
            have l2 := parseGroup_length pyDigit t1 g2 t2 h2
            have l1 := parseGroup_length (fun c => c != ':') s g1 t1 h1
            omega
          next => exact absurd h (by simp)
        next => exact absurd h (by simp)
      next => exact absurd h (by simp)
    next => exact absurd h (by simp)
  next => exact absurd h (by simp)

theorem tryMatch_spec (s : List Char) (r : Rec) (after : List Char)
    (h : tryMatch s = some (r, after)) :
    (∀ x ∈ r.msg, x ≠ '\n') ∧ r.line ≠ [] ∧ (∀ x ∈ r.line, pyDigit x = true)
      ∧ r.col ≠ [] ∧ (∀ x ∈ r.col, pyDigit x = true) := by
  unfold tryMatch at h
  split at h
  next g1 t1 h1 =>
    split at h
    next g2 t2 h2 =>
      split at h
      next g3 t3 h3 =>
        split at h
        next t5 h4 =>
          split at h
          next mr af h5 =>
            simp only [Option.some.injEq, Prod.mk.injEq] at h
            obtain ⟨rfl, -⟩ := h
            obtain ⟨hg2ne, hg2d, -⟩ := parseGroup_spec pyDigit t1 g2 t2 h2
            obtain ⟨hg3ne, hg3d, -⟩ := parseGroup_spec pyDigit t2 g3 t3 h3
            exact ⟨parseMsg_no_newline t5 mr af h5, hg2ne, hg2d, hg3ne, hg3d⟩
          next => exact absurd h (by simp)
        next => exact absurd h (by simp)
      next => exact absurd h (by simp)
    next => exact absurd h (by simp)
  next => exact absurd h (by simp)

theorem tryMatch_errLine (p l c m rest : List Char)
    (hp : p ≠ []) (hpc : ':' ∉ p)
    (hl : l ≠ []) (hld : ∀ x ∈ l, pyDigit x = true)
    (hc : c ≠ []) (hcd : ∀ x ∈ c, pyDigit x = true)
    (hnl : '\n' ∉ m) (hnw : ∃ x ∈ m, pySpace x = false) :
    tryMatch (mkErrLine p l c m ++ rest) =
      some (⟨p, l, c, m.dropWhile pySpace ++ rest.takeWhile (fun x => x != '\n')⟩,
        rest.dropWhile (fun x => x != '\n')) := by
  have hassoc : mkErrLine p l c m ++ rest
      = p ++ ':' :: (l ++ ':' :: (c ++ ':' ::
          (' ' :: (errorLit ++ ' ' :: (m ++ rest))))) := by
    simp [mkErrLine, List.append_assoc]
  have hp' : ∀ x ∈ p, (x != ':') = true := by
    intro x hx
    simp only [bne_iff_ne, ne_eq]
    intro hcontr
    rw [hcontr] at hx
    exact hpc hx
  have h1 := parseGroup_of (fun x => x != ':') p
    (l ++ ':' :: (c ++ ':' :: (' ' :: (errorLit ++ ' ' :: (m ++ rest)))))
    hp hp' (by decide)
  have h2 := parseGroup_of pyDigit l
    (c ++ ':' :: (' ' :: (errorLit ++ ' ' :: (m ++ rest)))) hl hld (by decide)
  have h3 := parseGroup_of pyDigit c
    (' ' :: (errorLit ++ ' ' :: (m ++ rest))) hc hcd (by decide)
  have h4 := parseWsLiteral_of (' ' :: (m ++ rest))
  have h5 := parseMsg_of m rest hnl hnw
  rw [hassoc]
  simp only [tryMatch, h1, h2, h3, h4, h5]


/-! ### The finditer scan -/

theorem scanF_nil (f : Nat) (b : Bool) : scanF f [] b = [] := by
  cases f <;> rfl

theorem scanF_cons_match (fuel : Nat) (s after : List Char) (r : Rec)
    (hne : s ≠ []) (h : tryMatch s = some (r, after)) :
    scanF (fuel + 1) s true = r :: scanF fuel after false := by
  cases s with
  | nil => exact absurd rfl hne
  | cons ch cs => simp [scanF, h]

theorem scanF_congr (f : Nat) : ∀ (g : Nat) (s : List Char) (b : Bool),
    s.length ≤ f → s.length ≤ g → scanF f s b = scanF g s b := by
  induction f with
  | zero =>
    intro g s b hf _
    have hs : s = [] := List.length_eq_zero.mp (Nat.le_antisymm hf (Nat.zero_le _))
    subst hs
    rw [scanF_nil, scanF_nil]
  | succ f ih =>
    intro g s b hf hg
    cases s with
    | nil => rw [scanF_nil, scanF_nil]
    | cons ch cs =>
      cases g with
      | zero => simp at hg
      | succ g =>
        have hcs_f : cs.length ≤ f := by
          simp only [List.length_cons] at hf
          omega
        have hcs_g : cs.length ≤ g := by
          simp only [List.length_cons] at hg
          omega
        cases b with
        | false =>
          simp only [scanF]
          exact ih g cs (ch == '\n') hcs_f hcs_g
        | true =>
          rcases htm : tryMatch (ch :: cs) with - | ⟨r, after⟩
          · simp only [scanF, htm]
            exact ih g cs (ch == '\n') hcs_f hcs_g
          · have hlen := tryMatch_length (ch :: cs) r after htm
            simp only [List.length_cons] at hlen
            simp only [scanF, htm]
            rw [ih g after false (by omega) (by omega)]

theorem rawScan_of_match (s after : List Char) (r : Rec)
    (h : tryMatch s = some (r, after)) (haf : after = [] ∨ after = ['\n']) :
    rawScan s = [r] := by
  have hne : s ≠ [] := by
    intro he
    rw [he, tryMatch_nil] at h
    exact absurd h (by simp)
  obtain ⟨ch, cs, rfl⟩ : ∃ ch cs, s = ch :: cs := by
    cases s with
    | nil => exact absurd rfl hne
    | cons ch cs => exact ⟨ch, cs, rfl⟩
  unfold rawScan
  rw [show (ch :: cs).length = cs.length + 1 from rfl,
    scanF_cons_match cs.length (ch :: cs) after r hne h]
  rcases haf with rfl | rfl
  · rw [scanF_nil]
  · have hlen := tryMatch_length (ch :: cs) r ['\n'] h
    simp only [List.length_cons, List.length_singleton] at hlen
    rw [scanF_congr cs.length 1 ['\n'] false (by simp; omega) (by simp)]
    rfl

theorem scanF_inv (f : Nat) : ∀ (s : List Char) (b : Bool) (r : Rec),
    r ∈ scanF f s b →
      (∀ x ∈ r.msg, x ≠ '\n') ∧ r.line ≠ [] ∧ (∀ x ∈ r.line, pyDigit x = true)
        ∧ r.col ≠ [] ∧ (∀ x ∈ r.col, pyDigit x = true) := by
  induction f with
  | zero =>
    intro s b r h
    rw [show scanF 0 s b = [] from rfl] at h
    exact absurd h (List.not_mem_nil r)
  | succ f ih =>
    intro s b r h
    cases s with
    | nil =>
      rw [scanF_nil] at h
      exact absurd h (List.not_mem_nil r)
    | cons ch cs =>
      cases b with
      | false =>
        simp only [scanF] at h
        exact ih cs (ch == '\n') r h
      | true =>
        rcases htm : tryMatch (ch :: cs) with - | ⟨r0, after⟩
        · simp only [scanF, htm] at h
          exact ih cs (ch == '\n') r h
        · simp only [scanF, htm] at h
          rcases List.mem_cons.mp h with rfl | h'
          · exact tryMatch_spec (ch :: cs) r after htm
          · exact ih after false r h'


/-! ### Deduplication -/

theorem dedupLoop_fst (rs : List Rec) :
    ∀ (seen : List (List Char × List Char × List Char)) (f : Bool),
      (dedupLoop rs seen f).1
        = dedupByKey (rs.filter (fun r => decide (dedupKey r ∉ seen))) := by
  induction rs with
  | nil =>
    intro seen f
    simp [dedupLoop, dedupByKey]
  | cons r rs ih =>
    intro seen f
    by_cases hmem : dedupKey r ∈ seen
    · rw [List.filter_cons_of_neg (by simp [hmem])]
      simp only [dedupLoop, if_pos hmem]
      exact ih seen f
    · rw [List.filter_cons_of_pos (by simp [hmem])]
      simp only [dedupLoop, if_neg hmem]
      rw [dedupByKey]
      have hpred : ∀ x ∈ rs, decide (dedupKey x ∉ (dedupKey r :: seen))
          = (decide (dedupKey x ≠ dedupKey r) && decide (dedupKey x ∉ seen)) := by
        intro x _
        by_cases h1 : dedupKey x = dedupKey r <;> by_cases h2 : dedupKey x ∈ seen <;>
          simp [h1, h2]
      rw [ih (dedupKey r :: seen) true, List.filter_congr hpred, ← List.filter_filter]

theorem dedupLoop_snd (rs : List Rec) :
    ∀ (seen : List (List Char × List Char × List Char)) (f : Bool),
      (dedupLoop rs seen f).2 = (f || !(dedupLoop rs seen f).1.isEmpty) := by
  induction rs with
  | nil =>
    intro seen f
    simp [dedupLoop]
  | cons r rs ih =>
    intro seen f
    by_cases hmem : dedupKey r ∈ seen
    · simp only [dedupLoop, if_pos hmem]
      exact ih seen f
    · simp only [dedupLoop, if_neg hmem]
      rw [ih (dedupKey r :: seen) true]
      simp

theorem dedupByKey_subset (l : List Rec) : ∀ r ∈ dedupByKey l, r ∈ l := by
  induction l using dedupByKey.induct with
  | case1 => simp [dedupByKey]
  | case2 r rs ih =>
    intro x hx
    rw [dedupByKey] at hx
    rcases List.mem_cons.mp hx with rfl | hx'
    · exact List.mem_cons_self _ _
    · exact List.mem_cons_of_mem _ (List.mem_of_mem_filter (ih x hx'))

theorem dedupByKey_keys_nodup (l : List Rec) :
    ((dedupByKey l).map dedupKey).Nodup := by
  induction l using dedupByKey.induct with
  | case1 => simp [dedupByKey]
  | case2 r rs ih =>
    rw [dedupByKey]
    simp only [List.map_cons, List.nodup_cons]
    refine ⟨?_, ih⟩
    intro hmem
    obtain ⟨x, hx, hkx⟩ := List.mem_map.mp hmem
    have hxf := dedupByKey_subset _ x hx
    have := List.of_mem_filter hxf
    rw [hkx] at this
    simp at this

theorem parse_records (s : List Char) : (parse_logs s).1 = dedupByKey (rawRecords s) := by
  unfold parse_logs
  rw [dedupLoop_fst]
  congr 1
  rw [List.filter_congr (fun x _ => by simp : ∀ x ∈ rawRecords s,
    (decide (dedupKey x ∉ ([] : List (List Char × List Char × List Char)))) = true)]
  exact List.filter_true _

/-! ### Stripping -/

theorem strip_subset (l : List Char) : ∀ x ∈ strip l, x ∈ l := by
  intro x hx
  unfold strip at hx
  rw [List.mem_reverse] at hx
  have h1 := List.Sublist.mem hx (List.dropWhile_sublist pySpace)
  rw [List.mem_reverse] at h1
  exact List.Sublist.mem h1 (List.dropWhile_sublist pySpace)

theorem dropWhile_append_stop (P : Char → Bool) (a b : List Char)
    (h : ∃ x ∈ a, P x = false) :
    (a ++ b).dropWhile P = a.dropWhile P ++ b := by
  induction a with
  | nil =>
    obtain ⟨x, hx, _⟩ := h
    exact absurd hx (List.not_mem_nil x)
  | cons c rest ih =>
    by_cases hc : P c = true
    · have hrest : ∃ x ∈ rest, P x = false := by
        obtain ⟨x, hx, hPx⟩ := h
        rcases List.mem_cons.mp hx with rfl | hxr
        · rw [hc] at hPx
          exact absurd hPx (by simp)
        · exact ⟨x, hxr, hPx⟩
      simp [List.dropWhile_cons, hc, ih hrest]
    · simp [List.dropWhile_cons, hc]

theorem strip_append_ws (a b : List Char) (hb : ∀ x ∈ b, pySpace x = true) :
    strip (a ++ b) = strip a := by
  unfold strip
  by_cases ha : ∀ x ∈ a, pySpace x = true
  · rw [List.dropWhile_append_of_pos ha, List.dropWhile_eq_nil_iff.mpr hb,
      List.dropWhile_eq_nil_iff.mpr ha]
  · have hex : ∃ x ∈ a, pySpace x = false := by
      push_neg at ha
      obtain ⟨x, hx, hPx⟩ := ha
      exact ⟨x, hx, by simpa using hPx⟩
    rw [dropWhile_append_stop pySpace a b hex, List.reverse_append,
      List.dropWhile_append_of_pos (fun y hy => hb y (List.mem_reverse.mp hy))]

theorem dropWhile_idem (P : Char → Bool) (l : List Char) :
    (l.dropWhile P).dropWhile P = l.dropWhile P := by
  induction l with
  | nil => rfl
  | cons c r ih =>
    by_cases h : P c = true
    · simp [List.dropWhile_cons, h, ih]
    · simp [List.dropWhile_cons, h]

theorem strip_dropWhile (l : List Char) : strip (l.dropWhile pySpace) = strip l := by
  unfold strip
  rw [dropWhile_idem]

/-! ### CRLF rewriting -/

theorem toCRLF_append (a b : List Char) : toCRLF (a ++ b) = toCRLF a ++ toCRLF b := by
  induction a with
  | nil => rfl
  | cons c r ih =>
    by_cases h : c = '\n' <;> simp [toCRLF, h, ih]

theorem toCRLF_of_no_newline (a : List Char) (h : '\n' ∉ a) : toCRLF a = a := by
  induction a with
  | nil => rfl
  | cons c r ih =>
    have hc : c ≠ '\n' := by
      intro hcontr
      rw [hcontr] at h
      exact h (List.mem_cons_self _ _)
    have hr : '\n' ∉ r := fun hmem => h (List.mem_cons_of_mem _ hmem)
    simp [toCRLF, hc, ih hr]


theorem find?_filter_of_imp (p q : Rec → Bool) (l : List Rec)
    (himp : ∀ y, p y = true → q y = true) :
    (l.filter q).find? p = l.find? p := by
  induction l with
  | nil => rfl
  | cons y ys ih =>
    by_cases hp : p y = true
    · rw [List.filter_cons_of_pos (himp y hp), List.find?_cons_of_pos _ hp,
        List.find?_cons_of_pos _ hp]
    · by_cases hq : q y = true
      · rw [List.filter_cons_of_pos hq, List.find?_cons_of_neg _ hp,
          List.find?_cons_of_neg _ hp]
        exact ih
      · rw [List.filter_cons_of_neg hq, List.find?_cons_of_neg _ hp]
        exact ih

theorem dedupByKey_find (l : List Rec) :
    ∀ r ∈ dedupByKey l, l.find? (fun x => decide (dedupKey x = dedupKey r)) = some r := by
  induction l using dedupByKey.induct with
  | case1 => simp [dedupByKey]
  | case2 y ys ih =>
    intro r hr
    rw [dedupByKey] at hr
    rcases List.mem_cons.mp hr with rfl | hr'
    · rw [List.find?_cons_of_pos _ (by simp)]
    · have hfind := ih r hr'
      have hne : dedupKey r ≠ dedupKey y := by
        have hmem := dedupByKey_subset _ r hr'
        have hfil := List.of_mem_filter hmem
        simpa using hfil
      rw [List.find?_cons_of_neg _
        (by simp only [decide_eq_true_eq]; exact fun h => hne h.symm)]
      rw [← hfind]
      refine (find?_filter_of_imp _ _ ys (fun z hz => ?_)).symm
      simp only [decide_eq_true_eq] at hz ⊢
      rw [hz]
      exact hne

theorem dedupByKey_complete (l : List Rec) :
    ∀ r ∈ l, ∃ x ∈ dedupByKey l, dedupKey x = dedupKey r := by
  induction l using dedupByKey.induct with
  | case1 => simp
  | case2 y ys ih =>
    intro r hr
    rw [dedupByKey]
    rcases List.mem_cons.mp hr with rfl | hr'
    · exact ⟨r, List.mem_cons_self _ _, rfl⟩
    · by_cases hk : dedupKey r = dedupKey y
      · exact ⟨y, List.mem_cons_self _ _, hk.symm⟩
      · have hrf : r ∈ ys.filter (fun x => decide (dedupKey x ≠ dedupKey y)) :=
          List.mem_filter.mpr ⟨hr', by simp [hk]⟩
        obtain ⟨x, hx, hkx⟩ := ih r hrf
        exact ⟨x, List.mem_cons_of_mem _ hx, hkx⟩


/-! ### Claim theorems -/

/-- Claim C1: for every input text, the emitted sequence of records is the
first-occurrence deduplication of the matched records by the key
`(file_path, line_number_as_text, message)`: the output equals the
spec-described `dedupByKey` (one record per distinct key, in order of first
occurrence), its keys are pairwise distinct, each emitted record is exactly
the first matched record bearing its key, and every key that occurs among
the matches is represented in the output. -/
theorem claim1_dedup_first_occurrence (s : List Char) :
    (parse_logs s).1 = dedupByKey (rawRecords s)
      ∧ ((parse_logs s).1.map dedupKey).Nodup
      ∧ (∀ r ∈ (parse_logs s).1,
          (rawRecords s).find? (fun x => decide (dedupKey x = dedupKey r)) = some r)
      ∧ (∀ r ∈ rawRecords s, ∃ x ∈ (parse_logs s).1, dedupKey x = dedupKey r) := by
  refine ⟨parse_records s, ?_, ?_, ?_⟩
  · rw [parse_records s]
    exact dedupByKey_keys_nodup _
  · intro r hr
    rw [parse_records s] at hr
    exact dedupByKey_find _ r hr
  · intro r hr
    rw [parse_records s]
    exact dedupByKey_complete _ r hr

/-- Claim C1 witness: the deduplication properties evaluated on a concrete
text containing a duplicated key with differing column numbers. -/
theorem claim1_witness :
    (parse_logs inDup).1 = dedupByKey (rawRecords inDup)
      ∧ (rawRecords inDup).find?
          (fun x => decide (dedupKey x
            = dedupKey (⟨("a.x").toList, ['1'], ['2'], ['m']⟩ : Rec)))
          = some ⟨("a.x").toList, ['1'], ['2'], ['m']⟩ := by
  refine ⟨(claim1_dedup_first_occurrence inDup).1, ?_⟩
  exact (claim1_dedup_first_occurrence inDup).2.2.1
    ⟨("a.x").toList, ['1'], ['2'], ['m']⟩ (by decide)

/-- Claim C2 as stated is false on the code: for the input
`x.swift:1:1: error:` followed by four spaces, the pattern does match —
the greedy `\s+` backtracks and `(.+)` captures a trailing space — so
extraction emits one record rather than zero. -/
theorem claim2_cex : (parse_logs inC2).1.length = 1 := by decide

/-- Claim C2 amended: on the input `x.swift:1:1: error:` followed by four
spaces, the message group captures a whitespace character, and exactly one
record is emitted, with file `x.swift`, line `1`, column `1` and message
empty after stripping; the found flag is true. -/
theorem claim2_amended :
    parse_logs inC2 = ([⟨("x.swift").toList, ['1'], ['1'], []⟩], true) := by decide

/-- Claim C3 as stated is false on the code: the whitespace around the
literal `error:` is mandatory (`\s+`), so the line `a.swift:1:2:error:msg`
with no whitespace produces no record at all. -/
theorem claim3_cex : parse_logs inC3 = ([], false) := by decide

/-- Claim C3 amended: the whitespace around `error:` is required, not
optional.  With a single space on each side of `error:`, every line
`p:l:c: error: m` — path nonempty and colon-free, line and column nonempty
digit strings, message newline-free and containing a non-whitespace
character — produces exactly the record `(strip p, l, c, strip m)`. -/
theorem claim3_amended (p l c m : List Char)
    (hp : p ≠ []) (hpc : ':' ∉ p)
    (hl : l ≠ []) (hld : ∀ x ∈ l, pyDigit x = true)
    (hc : c ≠ []) (hcd : ∀ x ∈ c, pyDigit x = true)
    (hnl : '\n' ∉ m) (hnw : ∃ x ∈ m, pySpace x = false) :
    parse_logs (mkErrLine p l c m) = ([⟨strip p, l, c, strip m⟩], true) := by
  have htm := tryMatch_errLine p l c m [] hp hpc hl hld hc hcd hnl hnw
  simp only [List.append_nil, List.takeWhile_nil, List.dropWhile_nil] at htm
  have hraw := rawScan_of_match _ _ _ htm (Or.inl rfl)
  unfold parse_logs rawRecords
  rw [hraw]
  simp only [List.map_cons, List.map_nil]
  have hloop : ∀ x : Rec, dedupLoop [x] [] false = ([x], true) := by
    intro x
    simp [dedupLoop]
  rw [hloop]
  unfold mkRec
  simp only [strip_dropWhile]

/-- Claim C3 witness: the amended statement evaluated on the concrete line
`a.swift:1:2: error: msg`. -/
theorem claim3_witness :
    parse_logs (mkErrLine (("a.swift").toList) ['1'] ['2'] (("msg").toList))
      = ([⟨strip (("a.swift").toList), ['1'], ['2'], strip (("msg").toList)⟩], true) :=
  claim3_amended _ _ _ _ (by decide) (by decide) (by decide) (by decide) (by decide)
    (by decide) (by decide) (by decide)

/-- Claim C4 as stated is false on the code: `[^:]+` and `\s+` both match
`'\n'`, so a match can span physical lines.  The split diagnostic
`a.swift:1:2:` on one line and `error: msg` on the next produces a record,
and the file path of an emitted record can contain a newline character. -/
theorem claim4_cex :
    (parse_logs inC4a).1 = [⟨("a.swift").toList, ['1'], ['2'], ("msg").toList⟩]
      ∧ ∃ r ∈ (parse_logs inC4b).1, '\n' ∈ r.file := by decide

/-- Claim C4 amended: matches may span line breaks through the path and
whitespace parts, but the message group `(.+)` never crosses a line break:
no emitted record's message contains a newline character. -/
theorem claim4_amended (s : List Char) (r : Rec) (h : r ∈ (parse_logs s).1) :
    '\n' ∉ r.msg := by
  rw [parse_records] at h
  obtain ⟨raw, hraw, rfl⟩ := List.mem_map.mp (dedupByKey_subset _ r h)
  have hspec := scanF_inv s.length s true raw hraw
  intro hmem
  exact hspec.1 '\n' (strip_subset raw.msg '\n' hmem) rfl

/-- Claim C4 witness: the amended statement evaluated on a concrete record
of a concrete extraction. -/
theorem claim4_witness :
    '\n' ∉ (Rec.mk (("a.x").toList) ['1'] ['2'] ['m']).msg :=
  claim4_amended inDup ⟨("a.x").toList, ['1'], ['2'], ['m']⟩ (by decide)

/-- Claim C5: only the exact case-sensitive literal `error:` qualifies:
the same line shape with `warning:`, `note:` or `Error:` produces zero
records and a false found flag. -/
theorem claim5_severity :
    parse_logs inC5w = ([], false) ∧ parse_logs inC5n = ([], false)
      ∧ parse_logs inC5e = ([], false) := by decide

/-- Claim C6: if the scan yields no match the extractor returns zero records
with a false found flag (the "no errors found" terminal state); and in
general the found flag is true exactly when at least one record is
emitted. -/
theorem claim6_found_flag (s : List Char) :
    (rawScan s = [] → parse_logs s = ([], false))
      ∧ ((parse_logs s).2 = true ↔ (parse_logs s).1 ≠ []) := by
  constructor
  · intro h
    unfold parse_logs rawRecords
    rw [h]
    rfl
  · unfold parse_logs
    rw [dedupLoop_snd]
    simp [List.isEmpty_iff]

/-- Claim C6 witness: the empty input yields zero records and a false
found flag. -/
theorem claim6_witness :
    parse_logs [] = ([], false)
      ∧ ((parse_logs []).2 = true ↔ (parse_logs []).1 ≠ []) :=
  ⟨(claim6_found_flag []).1 rfl, (claim6_found_flag []).2⟩

/-- Claim C7: the line number is compared as text, not numerically: lines
differing only in `7` versus `007` (equal numeric values, as witnessed by
`digitsVal`) produce two distinct records, each reported with its digit
string as written. -/
theorem claim7_line_text :
    parse_logs inC7 =
      ([⟨("a.swift").toList, ['7'], ['1'], ['m']⟩,
        ⟨("a.swift").toList, ['0', '0', '7'], ['1'], ['m']⟩], true)
      ∧ digitsVal ['7'] = digitsVal ['0', '0', '7'] := by decide

/-- Claim C8 as stated is false on the code: `\d+` accepts `0`, so the line
`a.swift:0:0: error: msg` is matched and emits a record whose line and
column digit strings denote zero, which is not a positive integer. -/
theorem claim8_cex :
    (parse_logs inC8).1 = [⟨("a.swift").toList, ['0'], ['0'], ("msg").toList⟩]
      ∧ digitsVal ['0'] = 0 := by decide

/-- Claim C8 amended: every emitted record's line and column captures are
nonempty strings of decimal digits (hence denote natural numbers), but zero
and leading-zero forms are accepted; positivity is not enforced. -/
theorem claim8_amended (s : List Char) (r : Rec) (h : r ∈ (parse_logs s).1) :
    r.line ≠ [] ∧ (∀ x ∈ r.line, pyDigit x = true)
      ∧ r.col ≠ [] ∧ (∀ x ∈ r.col, pyDigit x = true) := by
  rw [parse_records] at h
  obtain ⟨raw, hraw, rfl⟩ := List.mem_map.mp (dedupByKey_subset _ r h)
  have hspec := scanF_inv s.length s true raw hraw
  exact ⟨hspec.2.1, hspec.2.2.1, hspec.2.2.2.1, hspec.2.2.2.2⟩

/-- Claim C8 witness: the amended statement evaluated on a concrete record
of a concrete extraction. -/
theorem claim8_witness :
    (Rec.mk (("a.x").toList) ['1'] ['2'] ['m']).line ≠ []
      ∧ (∀ x ∈ (Rec.mk (("a.x").toList) ['1'] ['2'] ['m']).line, pyDigit x = true)
      ∧ (Rec.mk (("a.x").toList) ['1'] ['2'] ['m']).col ≠ []
      ∧ (∀ x ∈ (Rec.mk (("a.x").toList) ['1'] ['2'] ['m']).col, pyDigit x = true) :=
  claim8_amended inDup ⟨("a.x").toList, ['1'], ['2'], ['m']⟩ (by decide)

/-- Claim C9: extraction is total.  The scan's structural fuel, set to the
length of the input, is never exhausted: giving it any fuel at least the
input length produces the same result, for every input — including empty or
arbitrary binary-looking text — so `parse_logs` is a well-defined total
function that cannot fail. -/
theorem claim9_total (f : Nat) (s : List Char) (b : Bool) (h : s.length ≤ f) :
    scanF f s b = scanF s.length s b :=
  scanF_congr f s.length s b h (Nat.le_refl _)

/-- Claim C9 witness: fuel-irrelevance evaluated at a concrete input with
surplus fuel. -/
theorem claim9_witness : scanF 25 inC3 true = scanF inC3.length inC3 true :=
  claim9_total 25 inC3 true (by decide)

/-- Claim C10 as stated is false on the code: extraction is not invariant
under replacing LF line endings by CRLF.  The line `x.swift:1:1: error: `
followed by LF has no match (only whitespace follows `error:`), but its
CRLF form matches with the carriage return as the message, so the record
list and even the found flag differ. -/
theorem claim10_cex :
    parse_logs inC10 = ([], false)
      ∧ parse_logs (toCRLF inC10)
          = ([⟨("x.swift").toList, ['1'], ['1'], []⟩], true) := by decide

/-- Claim C10 amended: for a well-formed single diagnostic line — path
nonempty, colon-free and newline-free, digit groups nonempty, message
newline-free with a non-whitespace character — replacing the terminating LF
by CRLF leaves the extraction result unchanged: the trailing carriage
return is captured into the message and removed by stripping. -/
theorem claim10_amended (p l c m : List Char)
    (hp : p ≠ []) (hpc : ':' ∉ p) (hpn : '\n' ∉ p)
    (hl : l ≠ []) (hld : ∀ x ∈ l, pyDigit x = true)
    (hc : c ≠ []) (hcd : ∀ x ∈ c, pyDigit x = true)
    (hnl : '\n' ∉ m) (hnw : ∃ x ∈ m, pySpace x = false) :
    parse_logs (toCRLF (mkErrLine p l c m ++ ['\n'])) =
      parse_logs (mkErrLine p l c m ++ ['\n']) := by
  have hlf := tryMatch_errLine p l c m ['\n'] hp hpc hl hld hc hcd hnl hnw
  have ht1 : (['\n'] : List Char).takeWhile (fun x => x != '\n') = [] := by decide
  have hd1 : (['\n'] : List Char).dropWhile (fun x => x != '\n') = ['\n'] := by decide
  rw [ht1, hd1, List.append_nil] at hlf
  have hrawLF := rawScan_of_match _ _ _ hlf (Or.inr rfl)
  have hld' : '\n' ∉ l := fun hm => absurd (hld _ hm) (by decide)
  have hcd' : '\n' ∉ c := fun hm => absurd (hcd _ hm) (by decide)
  have herr : '\n' ∉ errorLit := by decide
  have hnlLine : '\n' ∉ mkErrLine p l c m := by
    intro hmem
    simp only [mkErrLine, List.mem_append, List.mem_cons] at hmem
    rcases hmem with h | h | h | h | h | h | h | h | h | h
    · exact hpn h
    · exact absurd h (by decide)
    · exact hld' h
    · exact absurd h (by decide)
    · exact hcd' h
    · exact absurd h (by decide)
    · exact absurd h (by decide)
    · exact herr h
    · exact absurd h (by decide)
    · exact hnl h
  have hcr : toCRLF (mkErrLine p l c m ++ ['\n'])
      = mkErrLine p l c m ++ ['\x0d', '\n'] := by
    rw [toCRLF_append, toCRLF_of_no_newline _ hnlLine]
    rfl
  have hcrlf := tryMatch_errLine p l c m ['\x0d', '\n'] hp hpc hl hld hc hcd hnl hnw
  have ht2 : (['\x0d', '\n'] : List Char).takeWhile (fun x => x != '\n')
      = ['\x0d'] := by decide
  have hd2 : (['\x0d', '\n'] : List Char).dropWhile (fun x => x != '\n')
      = ['\n'] := by decide
  rw [ht2, hd2] at hcrlf
  have hrawCR := rawScan_of_match _ _ _ hcrlf (Or.inr rfl)
  have hmsg : strip (m.dropWhile pySpace ++ ['\x0d']) = strip (m.dropWhile pySpace) :=
    strip_append_ws _ _ (by
      intro x hx
      simp only [List.mem_singleton] at hx
      rw [hx]
      decide)
  unfold parse_logs rawRecords
  rw [hcr, hrawCR, hrawLF]
  simp [mkRec, hmsg]

/-- Claim C10 witness: the amended invariance evaluated on the concrete
line `a.swift:1:2: error: msg` with LF and CRLF endings. -/
theorem claim10_witness :
    parse_logs (toCRLF (mkErrLine (("a.swift").toList) ['1'] ['2']
        (("msg").toList) ++ ['\n']))
      = parse_logs (mkErrLine (("a.swift").toList) ['1'] ['2']
        (("msg").toList) ++ ['\n']) :=
  claim10_amended _ _ _ _ (by decide) (by decide) (by decide) (by decide) (by decide)
    (by decide) (by decide) (by decide) (by decide)

